import Mathlib

/-
Shallow embedding of `lsofgraph.py` (gvalkov/python-lsofgraph).

The program reads the field-tagged record stream produced by `lsof -F`,
builds two tables (process attributes and per-process descriptor attributes),
drops kernel threads, correlates descriptors into communication links and
renders a Graphviz dot description.

Modelling conventions:
  * Python strings are `List Char` (`Str`); values that passed the
    blanket digit coercion become `PyVal.int`, all others `PyVal.str`.
  * Python dicts are insertion-ordered association lists with unique keys
    (`Dict`); `dinsert` replaces in place on an existing key and appends a
    fresh key at the end, exactly like CPython 3.7+ dict assignment.
  * Fatal Python exceptions (KeyError, NameError, TypeError, IndexError)
    are modelled with `Except Err`.
  * `generate_dot` is modelled up to the point where the node and edge
    statement lists are joined into the final graph template: it returns
    the pair (node statements, edge statements), each statement the exact
    text the Python templates produce.
-/

namespace Lsofgraph

abbrev Str := List Char

/-- A parsed lsof field value: the program coerces any all-digit value to an
integer (`value.isdigit()`), every other value stays a string. -/
inductive PyVal where
  | int (n : Nat)
  | str (s : Str)
deriving DecidableEq, Repr

/-- Python truthiness for the values that occur in the program. -/
def PyVal.truthy : PyVal → Bool
  | .int n => n != 0
  | .str s => !s.isEmpty

/-- Python `a or b` where `a`, `b` are `dict.get` results (possibly `None`). -/
def pyOr (a b : Option PyVal) : Option PyVal :=
  match a with
  | some v => if v.truthy then some v else b
  | none => b

/-- Insertion-ordered dictionary (CPython dict semantics). -/
abbrev Dict (K V : Type) := List (K × V)

def dget? [DecidableEq K] : Dict K V → K → Option V
  | [], _ => none
  | (k', v) :: t, k => if k' = k then some v else dget? t k

def dgetD [DecidableEq K] (d : Dict K V) (k : K) (v0 : V) : V :=
  (dget? d k).getD v0

/-- `d[k] = v`: replace in place if the key exists, else append. -/
def dinsert [DecidableEq K] : Dict K V → K → V → Dict K V
  | [], k, v => [(k, v)]
  | (k', v') :: t, k, v => if k' = k then (k', v) :: t else (k', v') :: dinsert t k v

/-- `defaultdict` access for effect only: create the entry if missing. -/
def dtouch [DecidableEq K] (d : Dict K V) (k : K) (v0 : V) : Dict K V :=
  if (dget? d k).isSome then d else d ++ [(k, v0)]

/-- Update the value stored under a present key (no-op when absent). -/
def dmodify [DecidableEq K] : Dict K V → K → (V → V) → Dict K V
  | [], _, _ => []
  | (k', v) :: t, k, f => if k' = k then (k', f v) :: t else (k', v) :: dmodify t k f

def dkeys (d : Dict K V) : List K := d.map Prod.fst

/-- The fatal exceptions the program can raise. -/
inductive Err where
  | nameError
  | indexError
  | keyT
  | keyI
  | keyN
  | keyP
  | keyA
  | keyR
  | keyL
  | typeError
deriving DecidableEq, Repr

/-- `foldlM` over `Except`, written out so proofs can unfold it. -/
def efoldlM (f : σ → α → Except Err σ) : σ → List α → Except Err σ
  | s, [] => .ok s
  | s, x :: t =>
    match f s x with
    | .error e => .error e
    | .ok s2 => efoldlM f s2 t

/-- `mapM` over `Except`, written out so proofs can unfold it. -/
def emapM (f : α → Except Err β) : List α → Except Err (List β)
  | [] => .ok []
  | x :: t =>
    match f x with
    | .error e => .error e
    | .ok y =>
      match emapM f t with
      | .error e => .error e
      | .ok ys => .ok (y :: ys)

def natOfDigits (v : Str) : Nat :=
  v.foldl (fun a c => a * 10 + (c.toNat - 48)) 0

/-- `value = line[1:]; if value.isdigit(): value = int(value)`. -/
def decodeVal (v : Str) : PyVal :=
  if v ≠ [] ∧ v.all Char.isDigit then .int (natOfDigits v) else .str v

abbrev FieldDict := Dict Char PyVal
abbrev ProcInfo := Dict PyVal FieldDict
abbrev FdDict := Dict PyVal FieldDict
abbrev FileInfo := Dict PyVal FdDict

/-- Parser state: the two tables plus the "current context" the attribute
lines attach to (`fields` in the Python source points into the table the
context names; `Ctx.start` is the initial state where `fields` and
`current_pid` are still undefined). -/
inductive Ctx where
  | start
  | proc (pid : PyVal)
  | file (pid fd : PyVal)
deriving DecidableEq, Repr

def Ctx.curPid : Ctx → Option PyVal
  | .start => none
  | .proc pid => some pid
  | .file pid _ => some pid

structure ParseSt where
  pi : ProcInfo
  fi : FileInfo
  ctx : Ctx
deriving DecidableEq, Repr

/-- One iteration of the `for line in line_iter` loop of `parse_lsof`.
An empty line makes `line[0]` raise IndexError; an `f` line before any `p`
line reads the undefined `current_pid` (NameError); an attribute line before
any `p`/`f` line writes to the undefined `fields` (NameError). -/
def parseStep (st : ParseSt) (line : Str) : Except Err ParseSt :=
  match line with
  | [] => .error .indexError
  | field :: rest =>
    let v := decodeVal rest
    if field = 'p' then
      .ok { pi := dtouch st.pi v [], fi := st.fi, ctx := .proc v }
    else if field = 'f' then
      match st.ctx.curPid with
      | none => .error .nameError
      | some pid =>
        .ok { pi := st.pi,
              fi := dmodify (dtouch st.fi pid []) pid (fun fdm => dtouch fdm v []),
              ctx := .file pid v }
    else
      match st.ctx with
      | .start => .error .nameError
      | .proc pid => .ok { st with pi := dmodify st.pi pid (fun d => dinsert d field v) }
      | .file pid fd =>
        .ok { st with fi := dmodify st.fi pid (fun fdm => dmodify fdm fd (fun d => dinsert d field v)) }

def parse_lsof (lines : List Str) : Except Err (ProcInfo × FileInfo) :=
  match efoldlM parseStep ⟨[], [], .start⟩ lines with
  | .error e => .error e
  | .ok st => .ok (st.pi, st.fi)

/-- `fd == 'txt' and fields.get('t') == 'unknown'`. -/
def isKernelFd (e : PyVal × FieldDict) : Bool :=
  e.1 = PyVal.str ("txt".toList) ∧ dget? e.2 't' = some (PyVal.str ("unknown".toList))

def isKernel (fdm : FdDict) : Bool := fdm.any isKernelFd

/-- The pids `find_kernel_threads` yields. -/
def find_kernel_threads (fi : FileInfo) : List PyVal :=
  fi.filterMap (fun e => if isKernel e.2 then some e.1 else none)

/-- `{pid: val for pid, val in file_info.items() if pid not in kernel_thread_pids}`. -/
def filterKernel (fi : FileInfo) : FileInfo :=
  fi.filter (fun e => ¬ e.1 ∈ find_kernel_threads fi)

/-- A correlation partition: resource key → (pid → descriptor fields).
The unix partition can be keyed by Python `None` (when both the inode and
the device attribute are missing), hence the `Option PyVal` key type. -/
abbrev Part := Dict (Option PyVal) (Dict PyVal FieldDict)

structure Links where
  unix : Part
  fifo : Part
  pipe : Part
  tcp : Part
  udp : Part
deriving DecidableEq, Repr

/-- `partition[name][pid] = fields` on a `defaultdict(dict)`. -/
def partAdd (p : Part) (key : Option PyVal) (pid : PyVal) (fl : FieldDict) : Part :=
  dinsert p key (dinsert (dgetD p key []) pid fl)

/-- The `(pid, fields)` pairs the double loop of `find_links` visits,
in visit order. -/
def linkEntries (fi : FileInfo) : List (PyVal × FieldDict) :=
  fi.flatMap (fun e => e.2.map (fun d => (e.1, d.2)))

/-- Split a string at the first occurrence of `"->"`:
`s.split('->', 1)` preceded by the `'->' in s` containment test
(`none` exactly when the separator does not occur). -/
def splitArrow : Str → Option (Str × Str)
  | c1 :: c2 :: rest =>
    if c1 = '-' ∧ c2 = '>' then some ([], rest)
    else
      match splitArrow (c2 :: rest) with
      | some (x, y) => some (c1 :: x, y)
      | none => none
  | _ => none

/-- Python `<` on strings (lexicographic on code points). -/
def pyLt : Str → Str → Bool
  | _, [] => false
  | [], _ :: _ => true
  | a :: as_, b :: bs => if a < b then true else if b < a then false else pyLt as_ bs

/-- `sorted([a, b])` for a two-element list (stable). -/
def sorted2 (a b : Str) : Str × Str :=
  if pyLt b a then (b, a) else (a, b)

/-- The canonical network key: split-at-separator results sorted and
rejoined with the raw two-character delimiter `\n`. -/
def canonKey (a b : Str) : Str :=
  (sorted2 a b).1 ++ '\\' :: 'n' :: (sorted2 a b).2

/-- One iteration of the descriptor loop of `find_links`. -/
def linkStep (ls : Links) (e : PyVal × FieldDict) : Except Err Links :=
  let pid := e.1
  let fl := e.2
  match dget? fl 't' with
  | none => .error .keyT
  | some t =>
    if t = PyVal.str ("unix".toList) then
      let key := pyOr (dget? fl 'i') (dget? fl 'd')
      .ok { ls with unix := partAdd ls.unix key pid fl }
    else if t = PyVal.str ("FIFO".toList) then
      match dget? fl 'i' with
      | none => .error .keyI
      | some iv => .ok { ls with fifo := partAdd ls.fifo (some iv) pid fl }
    else if t = PyVal.str ("IPv4".toList) ∨ t = PyVal.str ("IPv6".toList) then
      match dget? fl 'n' with
      | none => .error .keyN
      | some (.int _) => .error .typeError
      | some (.str n) =>
        match splitArrow n with
        | none => .ok ls
        | some (a, b) =>
          let key := PyVal.str (canonKey a b)
          match dget? fl 'P' with
          | none => .error .keyP
          | some pv =>
            if pv = PyVal.str ("TCP".toList) then
              .ok { ls with tcp := partAdd ls.tcp (some key) pid fl }
            else
              .ok { ls with udp := partAdd ls.udp (some key) pid fl }
    else .ok ls

def find_links (fi : FileInfo) : Except Err Links :=
  efoldlM linkStep ⟨[], [], [], [], []⟩ (linkEntries fi)

/-- `str()` of a value, as used by `str.format` / `%`. -/
def fmtVal : PyVal → Str
  | .int n => Nat.toDigits 10 n
  | .str s => s

/-- `str()` of a possibly-`None` value. -/
def fmtOptVal : Option PyVal → Str
  | none => "None".toList
  | some v => fmtVal v

/-- `template_edge.format(...)`. -/
def mkEdge (a b label color pw weight dir : Str) : Str :=
  "p".toList ++ a ++ " -> p".toList ++ b ++ " [label=\"".toList ++ label ++
    "\", penwidth=".toList ++ pw ++ ", weight=".toList ++ weight ++
    ", color=".toList ++ color ++ ", dir=\"".toList ++ dir ++ "\"];".toList

/-- The node statement the per-pid loop of `generate_dot` produces:
`tags = proc_info[pid]` (defaultdict: missing pid gives an empty dict),
`tags['R']` and `tags['L']` raise KeyError when absent. -/
def nodeStmt (pi_ : ProcInfo) (pid : PyVal) : Except Err Str :=
  let tags := dgetD pi_ pid []
  let namev := pyOr (dget? tags 'n') (dget? tags 'c')
  match dget? tags 'R' with
  | none => .error .keyR
  | some rv =>
    let color := if rv = PyVal.int 1 then "grey70".toList else "white".toList
    match dget? tags 'L' with
    | none => .error .keyL
    | some lv =>
      let label := fmtOptVal namev ++ '\\' :: 'n' :: fmtVal pid ++ ' ' :: fmtVal lv
      .ok ("p".toList ++ fmtVal pid ++ " [label=\"".toList ++ label ++
            "\", fillcolor=".toList ++ color ++ "];".toList)

/-- The parent edge the per-pid loop produces when `pid_parent` is truthy
and different from the integer 1. -/
def ancestryEdge (pi_ : ProcInfo) (pid : PyVal) : Option Str :=
  let tags := dgetD pi_ pid []
  match dget? tags 'R' with
  | none => none
  | some rv =>
    if rv.truthy ∧ rv ≠ PyVal.int 1 then
      some (mkEdge (fmtVal rv) (fmtVal pid) [] ("gray60".toList) ("2".toList)
              ("100".toList) ("none".toList))
    else none

/-- The edges one resource key contributes: one edge when the key's pid
dict has exactly two entries (`src, dst = pids` unpacks them in insertion
order; `pids[src]['a']` raises KeyError when the access mode is absent),
nothing otherwise. -/
def connEdgesForKey (desc color : Str) (key : Option PyVal)
    (pids : Dict PyVal FieldDict) : Except Err (List Str) :=
  match pids with
  | [(src, fsrc), (dst, _)] =>
    match dget? fsrc 'a' with
    | none => .error .keyA
    | some av =>
      let dir := if av = PyVal.str ("w".toList) then "forward".toList
                 else if av = PyVal.str ("r".toList) then "backward".toList
                 else "both".toList
      let label := desc ++ ':' :: '\\' :: 'n' :: fmtOptVal key
      .ok [mkEdge (fmtVal src) (fmtVal dst) label color ("1".toList) ("10".toList) dir]
  | _ => .ok []

/-- All edges one partition contributes, in key insertion order. -/
def connEdges (part : Part) (desc color : Str) : Except Err (List Str) :=
  efoldlM (fun acc e =>
    match connEdgesForKey desc color e.1 e.2 with
    | .error er => .error er
    | .ok es => .ok (acc ++ es)) [] part

/-- `generate_dot` up to the final template join: the node statement list
and the edge statement list (parent edges first, then unix, fifo, tcp, udp
edges, matching the append order of the Python loops; the `pipe` partition
is never rendered). -/
def generate_dot (pi_ : ProcInfo) (fi : FileInfo) (ls : Links) :
    Except Err (List Str × List Str) :=
  match emapM (fun e => nodeStmt pi_ e.1) fi with
  | .error e => .error e
  | .ok nodes =>
    let ancestry := fi.filterMap (fun e => ancestryEdge pi_ e.1)
    match connEdges ls.unix ("unix".toList) ("purple".toList) with
    | .error e => .error e
    | .ok eu =>
      match connEdges ls.fifo ("fifo".toList) ("green".toList) with
      | .error e => .error e
      | .ok ef =>
        match connEdges ls.tcp ("tcp".toList) ("red".toList) with
        | .error e => .error e
        | .ok et =>
          match connEdges ls.udp ("udp".toList) ("orange".toList) with
          | .error e => .error e
          | .ok ed => .ok (nodes, ancestry ++ eu ++ ef ++ et ++ ed)

/-- The whole pipeline of `main` on an already-split line list:
parse, drop kernel threads from `file_info`, correlate, emit. -/
def mainModel (lines : List Str) : Except Err (List Str × List Str) :=
  match parse_lsof lines with
  | .error e => .error e
  | .ok (pi_, fi0) =>
    let fi := filterKernel fi0
    match find_links fi with
    | .error e => .error e
    | .ok ls => generate_dot pi_ fi ls

/-! ### Generic dictionary lemmas -/

theorem dget?_dinsert_self [DecidableEq K] (d : Dict K V) (k : K) (v : V) :
    dget? (dinsert d k v) k = some v := by
  induction d with
  | nil => simp [dinsert, dget?]
  | cons h t ih =>
    by_cases hk : h.1 = k
    · simp [dinsert, hk, dget?]
    · simp [dinsert, hk, dget?, ih]

theorem dget?_dinsert_ne [DecidableEq K] (d : Dict K V) (k k' : K) (v : V)
    (h : k ≠ k') : dget? (dinsert d k v) k' = dget? d k' := by
  induction d with
  | nil => simp [dinsert, dget?, h]
  | cons hd t ih =>
    by_cases hk : hd.1 = k
    · simp [dinsert, hk, dget?, h]
    · simp [dinsert, hk, dget?, ih]

theorem mem_dinsert [DecidableEq K] (d : Dict K V) (k : K) (v : V) (x : K × V)
    (h : x ∈ dinsert d k v) : x = (k, v) ∨ x ∈ d := by
  induction d with
  | nil => simpa [dinsert] using h
  | cons hd t ih =>
    by_cases hk : hd.1 = k
    · simp only [dinsert, hk, if_pos rfl] at h
      rcases List.mem_cons.mp h with h1 | h1
      · left; rw [h1, ← hk]
      · right; exact List.mem_cons_of_mem _ h1
    · simp only [dinsert, hk, if_neg hk] at h
      rcases List.mem_cons.mp h with h1 | h1
      · right; exact h1 ▸ List.mem_cons_self _ _
      · rcases ih h1 with h2 | h2
        · exact Or.inl h2
        · exact Or.inr (List.mem_cons_of_mem _ h2)

theorem dget?_eq_none_iff [DecidableEq K] (d : Dict K V) (k : K) :
    dget? d k = none ↔ k ∉ d.map Prod.fst := by
  induction d with
  | nil => simp [dget?]
  | cons hd t ih =>
    by_cases hk : hd.1 = k
    · simp [dget?, hk]
    · simp [dget?, hk, ih, Ne.symm hk]

theorem dinsert_append_of_none [DecidableEq K] (d : Dict K V) (k : K) (v : V)
    (h : dget? d k = none) : dinsert d k v = d ++ [(k, v)] := by
  induction d with
  | nil => simp [dinsert]
  | cons hd t ih =>
    simp only [dget?] at h
    by_cases hk : hd.1 = k
    · simp [hk] at h
    · simp only [dinsert, if_neg hk, List.cons_append, List.cons.injEq, true_and]
      exact ih (by simpa [hk] using h)

theorem dinsert_self_of_get [DecidableEq K] (d : Dict K V) (k : K) (v : V)
    (h : dget? d k = some v) : dinsert d k v = d := by
  induction d with
  | nil => simp [dget?] at h
  | cons hd t ih =>
    obtain ⟨k1, v1⟩ := hd
    simp only [dget?] at h
    by_cases hk : k1 = k
    · rw [if_pos hk] at h
      simp only [Option.some.injEq] at h
      simp [dinsert, hk, h]
    · rw [if_neg hk] at h
      simp [dinsert, hk, ih h]

theorem dmodify_eq_dinsert [DecidableEq K] (d : Dict K V) (k : K) (f : V → V) (v : V)
    (h : dget? d k = some v) : dmodify d k f = dinsert d k (f v) := by
  induction d with
  | nil => simp [dget?] at h
  | cons hd t ih =>
    obtain ⟨k1, v1⟩ := hd
    simp only [dget?] at h
    by_cases hk : k1 = k
    · rw [if_pos hk] at h
      simp only [Option.some.injEq] at h
      simp [dmodify, dinsert, hk, h]
    · rw [if_neg hk] at h
      simp [dmodify, dinsert, hk, ih h]

theorem dtouch_eq_dinsert [DecidableEq K] (d : Dict K V) (k : K) (v0 : V) :
    dtouch d k v0 = dinsert d k (dgetD d k v0) := by
  unfold dtouch dgetD
  cases hg : dget? d k with
  | none => simp [hg, dinsert_append_of_none d k v0 hg]
  | some v => simp [hg, dinsert_self_of_get d k v hg]

theorem dinsert_dinsert [DecidableEq K] (d : Dict K V) (k : K) (v w : V) :
    dinsert (dinsert d k v) k w = dinsert d k w := by
  induction d with
  | nil => simp [dinsert]
  | cons hd t ih =>
    by_cases hk : hd.1 = k
    · simp [dinsert, hk]
    · simp [dinsert, hk, ih]

theorem dkeys_dinsert_of_some [DecidableEq K] (d : Dict K V) (k : K) (v w : V)
    (hg : dget? d k = some w) :
    (dinsert d k v).map Prod.fst = d.map Prod.fst := by
  induction d with
  | nil => simp [dget?] at hg
  | cons hd t ih =>
    obtain ⟨k1, v1⟩ := hd
    simp only [dget?] at hg
    by_cases hk : k1 = k
    · simp [dinsert, hk]
    · rw [if_neg hk] at hg
      simp [dinsert, hk, ih hg]

theorem dkeys_dinsert_nodup [DecidableEq K] (d : Dict K V) (k : K) (v : V)
    (h : (d.map Prod.fst).Nodup) : ((dinsert d k v).map Prod.fst).Nodup := by
  cases hg : dget? d k with
  | none =>
    rw [dinsert_append_of_none d k v hg]
    have hk : k ∉ d.map Prod.fst := (dget?_eq_none_iff d k).mp hg
    simp only [List.map_append, List.map_cons, List.map_nil]
    rw [List.nodup_append]
    refine ⟨h, List.nodup_singleton k, ?_⟩
    intro a ha hb
    rw [List.mem_singleton] at hb
    exact hk (hb ▸ ha)
  | some w =>
    rw [dkeys_dinsert_of_some d k v w hg]
    exact h

theorem dget?_of_perm [DecidableEq K] (d1 d2 : Dict K V) (k : K)
    (hp : List.Perm d1 d2) (hnd : (d1.map Prod.fst).Nodup) :
    dget? d1 k = dget? d2 k := by
  induction hp with
  | nil => rfl
  | cons x _ ih =>
    simp only [List.map_cons, List.nodup_cons] at hnd
    simp only [dget?]
    by_cases hk : x.1 = k
    · simp [hk]
    · simp [hk, ih hnd.2]
  | swap x y t =>
    simp only [List.map_cons, List.nodup_cons, List.mem_cons, not_or] at hnd
    have hxy : y.1 ≠ x.1 := hnd.1.1
    simp only [dget?]
    by_cases hyk : y.1 = k
    · have hxk : ¬ x.1 = k := fun h2 => hxy (hyk.trans h2.symm)
      simp [hyk, hxk]
    · by_cases hxk : x.1 = k <;> simp [hyk, hxk]
  | trans h12 _ ih1 ih2 =>
    exact (ih1 hnd).trans (ih2 ((h12.map Prod.fst).nodup_iff.mp hnd))

/-! ### Generic fold lemmas -/

theorem efoldlM_inv {σ α : Type} (P : σ → Prop) (f : σ → α → Except Err σ)
    (l : List α) (s : σ) (hs : P s)
    (hstep : ∀ s1 a s2, a ∈ l → P s1 → f s1 a = .ok s2 → P s2) :
    ∀ s', efoldlM f s l = .ok s' → P s' := by
  induction l generalizing s with
  | nil => intro s' h; simp only [efoldlM] at h; cases h; exact hs
  | cons x t ih =>
    intro s' h
    simp only [efoldlM] at h
    cases hf : f s x with
    | error e => rw [hf] at h; cases h
    | ok s2 =>
      rw [hf] at h
      exact ih s2 (hstep s x s2 (List.mem_cons_self _ _) hs hf)
        (fun s1 a s3 ha => hstep s1 a s3 (List.mem_cons_of_mem _ ha)) s' h

theorem efoldlM_error_of_mem {σ α : Type} (f : σ → α → Except Err σ)
    (l : List α) (s : σ) (a : α) (ha : a ∈ l)
    (hf : ∀ s1, ∃ e, f s1 a = .error e) :
    ∃ e, efoldlM f s l = .error e := by
  induction l generalizing s with
  | nil => cases ha
  | cons x t ih =>
    simp only [efoldlM]
    cases hx : f s x with
    | error e => exact ⟨e, rfl⟩
    | ok s2 =>
      rcases List.mem_cons.mp ha with h1 | h1
      · obtain ⟨e, he⟩ := hf s
        rw [h1, hx] at he; cases he
      · exact ih s2 h1

theorem efoldlM_ne_error {σ α : Type} (f : σ → α → Except Err σ)
    (l : List α) (s : σ) (bad : Err)
    (hstep : ∀ s1 a, a ∈ l → f s1 a ≠ .error bad) :
    efoldlM f s l ≠ .error bad := by
  induction l generalizing s with
  | nil => simp [efoldlM]
  | cons x t ih =>
    simp only [efoldlM]
    cases hx : f s x with
    | error e =>
      intro h
      cases h
      exact hstep s x (List.mem_cons_self _ _) hx
    | ok s2 => exact ih s2 (fun s1 a ha => hstep s1 a (List.mem_cons_of_mem _ ha))

/-! ### Claim C1: the cardinality gate -/

def c1pids : Dict PyVal FieldDict :=
  [(PyVal.int 1, [('a', PyVal.str ("w".toList))]), (PyVal.int 2, [])]

/-- C1: for every partition (the per-key emitter `connEdgesForKey` is applied
uniformly to the unix, fifo, tcp and udp partitions in `generate_dot`) and
every resource key, exactly one edge is produced when exactly two distinct
process ids hold a descriptor under the key (whenever the emitter returns at
all), and no edge is produced when the number of participating process ids is
0, 1, or 3 or more. -/
theorem c1_cardinality_gate (desc color : Str) (key : Option PyVal)
    (pids : Dict PyVal FieldDict) (hnd : (pids.map Prod.fst).Nodup) :
    (pids.length ≠ 2 → connEdgesForKey desc color key pids = .ok []) ∧
    (∀ es, connEdgesForKey desc color key pids = .ok es → es.length ≤ 1) ∧
    (pids.length = 2 → ∀ es, connEdgesForKey desc color key pids = .ok es →
      es.length = 1) := by
  clear hnd
  match pids with
  | [] =>
    refine ⟨fun _ => rfl, ?_, ?_⟩
    · intro es h; cases h; simp
    · intro h; simp at h
  | [x] =>
    refine ⟨fun _ => rfl, ?_, ?_⟩
    · intro es h
      simp only [connEdgesForKey] at h
      cases h; simp
    · intro h; simp at h
  | (src, fsrc) :: (dst, fdst) :: [] =>
    refine ⟨fun h => absurd rfl h, ?_, ?_⟩
    · intro es h
      simp only [connEdgesForKey] at h
      cases hg : dget? fsrc 'a' with
      | none => rw [hg] at h; cases h
      | some av => rw [hg] at h; cases h; simp
    · intro _ es h
      simp only [connEdgesForKey] at h
      cases hg : dget? fsrc 'a' with
      | none => rw [hg] at h; cases h
      | some av => rw [hg] at h; cases h; simp
  | x :: y :: z :: t =>
    refine ⟨fun _ => rfl, ?_, ?_⟩
    · intro es h
      simp only [connEdgesForKey] at h
      cases h; simp
    · intro h; simp at h

/-- Witness for C1 at a concrete two-process key. -/
theorem c1_cardinality_gate_witness :
    ∃ es, connEdgesForKey ("unix".toList) ("purple".toList) Option.none c1pids = .ok es ∧
      es.length = 1 := by
  cases hr : connEdgesForKey ("unix".toList) ("purple".toList) Option.none c1pids with
  | error e =>
    have hok : (connEdgesForKey ("unix".toList) ("purple".toList) Option.none c1pids).isOk = true := by
      decide
    rw [hr] at hok
    cases hok
  | ok es =>
    exact ⟨es, rfl,
      (c1_cardinality_gate ("unix".toList) ("purple".toList) Option.none c1pids
        (by decide)).2.2 (by decide) es hr⟩

/-! ### Claim C5: direction mapping -/

/-- Input where the first participant of a realized unix link has no
access-mode (`a`) attribute: pid 1's descriptor fd 3 carries only `t` and
`i`, pid 2's descriptor also shares inode 500. -/
def c5input : List Str :=
  [("p1".toList), ("R1".toList), ("La".toList), ("ca".toList),
   ("f3".toList), ("tunix".toList), ("i500".toList),
   ("p2".toList), ("R1".toList), ("Lb".toList), ("cb".toList),
   ("f4".toList), ("tunix".toList), ("i500".toList), ("aw".toList)]

/-- C5 counterexample: the claim says an absent access-mode attribute yields
a bidirectional edge "without aborting", but on this input — a realized
unix link whose chosen participant (pid 1, the first of the two process
ids) has no `a` attribute — the program aborts with a KeyError
(`pids[src]['a']`), emitting nothing. -/
theorem c5_direction_counterexample : mainModel c5input = .error Err.keyA := by
  rfl

/-- C5 (amended): the emitted edge's direction is determined by the
access-mode attribute of the chosen participant (the first of the two
process ids): `'w'` yields "forward" with that participant as source,
`'r'` yields "backward" with that participant as destination, any other
*present* value yields "both" (bidirectional); an *absent* access-mode
attribute is a fatal KeyError, not a bidirectional edge. -/
theorem c5_direction_mapping (desc color : Str) (key : Option PyVal)
    (s d : PyVal) (fs fd2 : FieldDict) :
    (dget? fs 'a' = Option.none →
      connEdgesForKey desc color key [(s, fs), (d, fd2)] = .error Err.keyA) ∧
    (∀ av, dget? fs 'a' = some av →
      connEdgesForKey desc color key [(s, fs), (d, fd2)] =
        .ok [mkEdge (fmtVal s) (fmtVal d)
              (desc ++ ':' :: '\\' :: 'n' :: fmtOptVal key) color
              ("1".toList) ("10".toList)
              (if av = PyVal.str ("w".toList) then "forward".toList
               else if av = PyVal.str ("r".toList) then "backward".toList
               else "both".toList)]) := by
  constructor
  · intro h
    simp only [connEdgesForKey, h]
  · intro av h
    simp only [connEdgesForKey, h]

/-- Witness for C5 at a concrete write-only participant. -/
theorem c5_direction_mapping_witness :
    connEdgesForKey ("unix".toList) ("purple".toList) (some (PyVal.int 500))
      [(PyVal.int 1, [('a', PyVal.str ("w".toList))]), (PyVal.int 2, [])] =
    .ok [mkEdge ("1".toList) ("2".toList)
          ("unix".toList ++ ':' :: '\\' :: 'n' :: "500".toList) ("purple".toList)
          ("1".toList) ("10".toList) ("forward".toList)] := by
  have h := (c5_direction_mapping ("unix".toList) ("purple".toList)
    (some (PyVal.int 500)) (PyVal.int 1) (PyVal.int 2)
    [('a', PyVal.str ("w".toList))] []).2 (PyVal.str ("w".toList)) rfl
  rw [h]
  rfl

/-! ### Claim C6: descriptors lacking the correlation attribute -/

/-- C6 counterexample: the claim says a FIFO descriptor with no inode is
merely excluded from correlation and raises no error, but `find_links`
raises a KeyError (`fifo[fields['i']]`) on it. -/
theorem c6_missing_name_counterexample :
    find_links [(PyVal.int 7, [(PyVal.int 0, [('t', PyVal.str ("FIFO".toList))])])] =
      .error Err.keyI := by
  rfl

/-- C6 (amended): when the attribute the channel class keys on is missing,
the behaviour differs by class: a unix-domain descriptor lacking both inode
and device identifier is *not* excluded — it is filed in the unix partition
under the `None` key; a FIFO lacking an inode raises a fatal KeyError; an
IPv4/IPv6 descriptor lacking a name field raises a fatal KeyError. (Only an
IPv4/IPv6 descriptor whose name lacks the `->` separator is silently
excluded, see C2.) -/
theorem c6_missing_attr_behaviour (p fd : PyVal) :
    find_links [(p, [(fd, [('t', PyVal.str ("FIFO".toList))])])] = .error Err.keyI ∧
    find_links [(p, [(fd, [('t', PyVal.str ("IPv4".toList))])])] = .error Err.keyN ∧
    find_links [(p, [(fd, [('t', PyVal.str ("unix".toList))])])] =
      .ok ⟨[(Option.none, [(p, [('t', PyVal.str ("unix".toList))])])], [], [], [], []⟩ := by
  exact ⟨rfl, rfl, rfl⟩

/-! ### Claim C7: non-integer process-start value -/

/-- C7 counterexample: the claim says a process-start line whose value is
not all decimal digits makes the program fail fatally, but the parser keeps
the value as the text pid `"abc"` and the whole pipeline completes. -/
theorem c7_nondigit_pid_counterexample :
    parse_lsof [('p' :: "abc".toList)] =
      .ok ([(PyVal.str ("abc".toList), [])], []) ∧
    mainModel [('p' :: "abc".toList), ("R1".toList), ("Lroot".toList)] =
      .ok ([], []) := by
  exact ⟨rfl, rfl⟩

/-- C7 (amended): a process-start value that is not composed solely of
decimal digits is *not* fatal: the blanket digit coercion leaves it as text
and parsing continues with that text as the current process id. -/
theorem c7_nondigit_pid_continues (v : Str)
    (hv : ¬ (v ≠ [] ∧ v.all Char.isDigit)) :
    parse_lsof [('p' :: v)] = .ok ([(PyVal.str v, [])], []) := by
  have hd : decodeVal v = PyVal.str v := by
    unfold decodeVal
    rw [if_neg hv]
  simp [parse_lsof, efoldlM, parseStep, hd, dtouch, dget?]

/-- Witness for C7 at the concrete value `"abc"`. -/
theorem c7_nondigit_pid_continues_witness :
    parse_lsof [('p' :: "abc".toList)] =
      .ok ([(PyVal.str ("abc".toList), [])], []) := by
  exact c7_nondigit_pid_continues ("abc".toList) (by decide)

/-! ### Claim C9: one process, no descriptors -/

/-- The end-to-end scenario input: one process (pid 10, parent reference
equal to the no-parent sentinel 1, hence also the "resident" flag) and no
descriptor records. -/
def c9input : List Str :=
  [("p10".toList), ("R1".toList), ("Lroot".toList), ("cinit".toList)]

/-- C9 counterexample: the claim says the output contains exactly one node
statement for pid 10, but `generate_dot` iterates `file_info`, which has no
entry for a process with no descriptor records, so the output contains zero
node statements. -/
theorem c9_one_process_counterexample :
    ¬ ∃ ns es, mainModel c9input = .ok (ns, es) ∧ ns.length = 1 := by
  rintro ⟨ns, es, h1, h2⟩
  have hm : mainModel c9input = .ok (([] : List Str), ([] : List Str)) := by rfl
  rw [hm] at h1
  cases h1
  cases h2

/-- C9 (amended): on an input describing exactly one process (pid 10, parent
reference the no-parent sentinel, resident flag) and no descriptor records,
the output contains *zero* node statements and zero edge statements,
because nodes are emitted only for process ids owning at least one
descriptor record. -/
theorem c9_one_process_no_descriptors :
    mainModel c9input = .ok ([], []) := by
  rfl

/-! ### More dictionary and correlator lemmas -/

theorem dget?_mem [DecidableEq K] (d : Dict K V) (k : K) (v : V)
    (h : dget? d k = some v) : (k, v) ∈ d := by
  induction d with
  | nil => cases h
  | cons hd t ih =>
    obtain ⟨k1, v1⟩ := hd
    simp only [dget?] at h
    by_cases hk : k1 = k
    · rw [if_pos hk] at h
      injection h with h2
      subst hk; subst h2
      exact List.mem_cons_self _ _
    · rw [if_neg hk] at h
      exact List.mem_cons_of_mem _ (ih h)

theorem dkeys_dinsert_sub [DecidableEq K] (d : Dict K V) (k : K) (v : V) (q : K)
    (h : q ∈ (dinsert d k v).map Prod.fst) : q = k ∨ q ∈ d.map Prod.fst := by
  rw [List.mem_map] at h
  obtain ⟨x, hx, hq⟩ := h
  rcases mem_dinsert d k v x hx with h1 | h1
  · left; rw [← hq, h1]
  · right; exact hq ▸ List.mem_map_of_mem Prod.fst h1

/-- Every `.ok` step of the correlator either leaves the partitions alone or
adds the visited `(pid, fields)` pair to exactly one partition under some key. -/
theorem linkStep_shape (ls ls2 : Links) (e : PyVal × FieldDict)
    (hs : linkStep ls e = .ok ls2) :
    ls2 = ls ∨
    (∃ key, ls2 = { ls with unix := partAdd ls.unix key e.1 e.2 }) ∨
    (∃ key, ls2 = { ls with fifo := partAdd ls.fifo key e.1 e.2 }) ∨
    (∃ key, ls2 = { ls with tcp := partAdd ls.tcp key e.1 e.2 }) ∨
    (∃ key, ls2 = { ls with udp := partAdd ls.udp key e.1 e.2 }) := by
  simp only [linkStep] at hs
  cases hg : dget? e.2 't' with
  | none => rw [hg] at hs; cases hs
  | some t =>
    simp only [hg] at hs
    by_cases h1 : t = PyVal.str ("unix".toList)
    · rw [if_pos h1] at hs
      injection hs with hs; subst hs
      exact Or.inr (Or.inl ⟨_, rfl⟩)
    · rw [if_neg h1] at hs
      by_cases h2 : t = PyVal.str ("FIFO".toList)
      · rw [if_pos h2] at hs
        cases hi : dget? e.2 'i' with
        | none => rw [hi] at hs; cases hs
        | some iv =>
          simp only [hi] at hs
          injection hs with hs; subst hs
          exact Or.inr (Or.inr (Or.inl ⟨_, rfl⟩))
      · rw [if_neg h2] at hs
        by_cases h3 : t = PyVal.str ("IPv4".toList) ∨ t = PyVal.str ("IPv6".toList)
        · rw [if_pos h3] at hs
          cases hn : dget? e.2 'n' with
          | none => rw [hn] at hs; cases hs
          | some nv =>
            simp only [hn] at hs
            cases nv with
            | int m => cases hs
            | str n =>
              cases hsp : splitArrow n with
              | none =>
                simp only [hsp] at hs
                injection hs with hs; subst hs
                exact Or.inl rfl
              | some ab =>
                obtain ⟨a, b⟩ := ab
                simp only [hsp] at hs
                cases hp : dget? e.2 'P' with
                | none => rw [hp] at hs; cases hs
                | some pv =>
                  simp only [hp] at hs
                  by_cases h4 : pv = PyVal.str ("TCP".toList)
                  · rw [if_pos h4] at hs
                    injection hs with hs; subst hs
                    exact Or.inr (Or.inr (Or.inr (Or.inl ⟨_, rfl⟩)))
                  · rw [if_neg h4] at hs
                    injection hs with hs; subst hs
                    exact Or.inr (Or.inr (Or.inr (Or.inr ⟨_, rfl⟩)))
        · rw [if_neg h3] at hs
          injection hs with hs; subst hs
          exact Or.inl rfl

theorem linkStep_ne_keyT (s : Links) (e : PyVal × FieldDict)
    (h : (dget? e.2 't').isSome) : linkStep s e ≠ .error Err.keyT := by
  intro hbad
  simp only [linkStep] at hbad
  cases hg : dget? e.2 't' with
  | none => rw [hg] at h; cases h
  | some t =>
    simp only [hg] at hbad
    by_cases h1 : t = PyVal.str ("unix".toList)
    · rw [if_pos h1] at hbad; cases hbad
    · rw [if_neg h1] at hbad
      by_cases h2 : t = PyVal.str ("FIFO".toList)
      · rw [if_pos h2] at hbad
        cases hi : dget? e.2 'i' with
        | none => simp only [hi] at hbad; cases hbad
        | some iv => simp only [hi] at hbad; cases hbad
      · rw [if_neg h2] at hbad
        by_cases h3 : t = PyVal.str ("IPv4".toList) ∨ t = PyVal.str ("IPv6".toList)
        · rw [if_pos h3] at hbad
          cases hn : dget? e.2 'n' with
          | none => simp only [hn] at hbad; cases hbad
          | some nv =>
            simp only [hn] at hbad
            cases nv with
            | int m => cases hbad
            | str n =>
              cases hsp : splitArrow n with
              | none => simp only [hsp] at hbad; cases hbad
              | some ab =>
                obtain ⟨a, b⟩ := ab
                simp only [hsp] at hbad
                cases hp : dget? e.2 'P' with
                | none => simp only [hp] at hbad; cases hbad
                | some pv =>
                  simp only [hp] at hbad
                  by_cases h4 : pv = PyVal.str ("TCP".toList)
                  · rw [if_pos h4] at hbad; cases hbad
                  · rw [if_neg h4] at hbad; cases hbad
        · rw [if_neg h3] at hbad; cases hbad

theorem linkStep_keyT_of_none (s : Links) (e : PyVal × FieldDict)
    (h : dget? e.2 't' = Option.none) : linkStep s e = .error Err.keyT := by
  simp only [linkStep, h]

/-! ### Claim C8: missing descriptor type is fatal at correlation time -/

/-- C8: a retained descriptor that reaches correlation with no type
attribute (`t` absent) makes `find_links` fail fatally (the whole
correlation errors, the descriptor is not skipped); descriptors with a
defined type never trigger this missing-type failure (`Err.keyT`). -/
theorem c8_missing_type_fatal (fi : FileInfo) :
    ((∃ e ∈ linkEntries fi, dget? e.2 't' = Option.none) →
      ∃ er, find_links fi = .error er) ∧
    ((∀ e ∈ linkEntries fi, (dget? e.2 't').isSome) →
      find_links fi ≠ .error Err.keyT) := by
  constructor
  · rintro ⟨e, he, hn⟩
    exact efoldlM_error_of_mem linkStep (linkEntries fi) _ e he
      (fun s1 => ⟨Err.keyT, linkStep_keyT_of_none s1 e hn⟩)
  · intro hall
    exact efoldlM_ne_error linkStep (linkEntries fi) _ Err.keyT
      (fun s1 a ha => linkStep_ne_keyT s1 a (hall a ha))

/-- Witness for C8: a descriptor with no `t` attribute makes correlation
error, and on a FIFO descriptor with a defined type the error is not the
missing-type error. -/
theorem c8_missing_type_fatal_witness :
    (∃ er, find_links [(PyVal.int 3, [(PyVal.int 0, [])])] = .error er) ∧
    find_links [(PyVal.int 7, [(PyVal.int 0, [('t', PyVal.str ("FIFO".toList))])])] ≠
      .error Err.keyT := by
  constructor
  · exact (c8_missing_type_fatal [(PyVal.int 3, [(PyVal.int 0, [])])]).1
      ⟨(PyVal.int 3, []), by decide, by decide⟩
  · exact (c8_missing_type_fatal
      [(PyVal.int 7, [(PyVal.int 0, [('t', PyVal.str ("FIFO".toList))])])]).2
      (by decide)

/-! ### Claim C10: per-key pid uniqueness, no self-links -/

theorem partAdd_innerNodup (part : Part) (key : Option PyVal) (pid : PyVal)
    (fl : FieldDict) (h : ∀ kp ∈ part, ((kp.2).map Prod.fst).Nodup) :
    ∀ kp ∈ partAdd part key pid fl, ((kp.2).map Prod.fst).Nodup := by
  intro kp hkp
  rcases mem_dinsert _ _ _ _ hkp with h1 | h1
  · rw [h1]
    apply dkeys_dinsert_nodup
    unfold dgetD
    cases hg : dget? part key with
    | none => simp
    | some d => simpa using h (key, d) (dget?_mem _ _ _ hg)
  · exact h kp h1

/-- The nodup-inner-keys invariant of the correlator fold. -/
def InnerNodup (ls : Links) : Prop :=
  ∀ part ∈ [ls.unix, ls.fifo, ls.pipe, ls.tcp, ls.udp], ∀ kp ∈ part,
    ((kp.2).map Prod.fst).Nodup

theorem linkStep_innerNodup (ls ls2 : Links) (e : PyVal × FieldDict)
    (h : InnerNodup ls) (hs : linkStep ls e = .ok ls2) : InnerNodup ls2 := by
  have hu := h ls.unix (by simp)
  have hf := h ls.fifo (by simp)
  have hp := h ls.pipe (by simp)
  have ht := h ls.tcp (by simp)
  have hd := h ls.udp (by simp)
  rcases linkStep_shape ls ls2 e hs with h1 | ⟨k, h1⟩ | ⟨k, h1⟩ | ⟨k, h1⟩ | ⟨k, h1⟩ <;>
    subst h1 <;> intro part hpart <;>
    simp only [List.mem_cons, List.mem_singleton, List.not_mem_nil, or_false] at hpart
  · rcases hpart with h2 | h2 | h2 | h2 | h2 <;> subst h2 <;>
      first
        | exact hu
        | exact hf
        | exact hp
        | exact ht
        | exact hd
  · rcases hpart with h2 | h2 | h2 | h2 | h2 <;> subst h2 <;>
      first
        | exact partAdd_innerNodup _ _ _ _ hu
        | exact hu
        | exact hf
        | exact hp
        | exact ht
        | exact hd
  · rcases hpart with h2 | h2 | h2 | h2 | h2 <;> subst h2 <;>
      first
        | exact partAdd_innerNodup _ _ _ _ hf
        | exact hu
        | exact hf
        | exact hp
        | exact ht
        | exact hd
  · rcases hpart with h2 | h2 | h2 | h2 | h2 <;> subst h2 <;>
      first
        | exact partAdd_innerNodup _ _ _ _ ht
        | exact hu
        | exact hf
        | exact hp
        | exact ht
        | exact hd
  · rcases hpart with h2 | h2 | h2 | h2 | h2 <;> subst h2 <;>
      first
        | exact partAdd_innerNodup _ _ _ _ hd
        | exact hu
        | exact hf
        | exact hp
        | exact ht
        | exact hd

theorem find_links_innerNodup (fi : FileInfo) (ls : Links)
    (h : find_links fi = .ok ls) : InnerNodup ls := by
  refine efoldlM_inv InnerNodup linkStep (linkEntries fi) _ ?_ ?_ ls h
  · intro part hpart kp hkp
    simp only [List.mem_cons, List.not_mem_nil, or_false] at hpart
    rcases hpart with h2 | h2 | h2 | h2 | h2 <;> subst h2 <;> cases hkp
  · intro s1 a s2 _ hP hstep
    exact linkStep_innerNodup s1 s2 a hP hstep

/-- C10: in every partition map the correlator produces, each resource key
maps each participating process id to at most one descriptor attribute set
(`partition[name][pid] = fields` replaces the previous entry of the same
process, first conjunct); each key's pid dictionary has no duplicate pid
(second conjunct); a key held only by descriptors of a single process yields
no edge (third conjunct); and a realized link's two participants are always
distinct processes, so no link connects a process to itself (fourth
conjunct). -/
theorem c10_no_self_links (fi : FileInfo) (ls : Links)
    (h : find_links fi = .ok ls) :
    (∀ part key pid fl, ∃ inner,
        dget? (partAdd part key pid fl) key = some inner ∧
        dget? inner pid = some fl) ∧
    (∀ part ∈ [ls.unix, ls.fifo, ls.pipe, ls.tcp, ls.udp], ∀ kp ∈ part,
        ((kp.2).map Prod.fst).Nodup) ∧
    (∀ part ∈ [ls.unix, ls.fifo, ls.pipe, ls.tcp, ls.udp], ∀ kp ∈ part,
        ∀ p0, (∀ q ∈ (kp.2).map Prod.fst, q = p0) →
          ∀ desc color, connEdgesForKey desc color kp.1 kp.2 = .ok []) ∧
    (∀ part ∈ [ls.unix, ls.fifo, ls.pipe, ls.tcp, ls.udp], ∀ kp ∈ part,
        ∀ a fa b fb t2, kp.2 = (a, fa) :: (b, fb) :: t2 → a ≠ b) := by
  have hinv := find_links_innerNodup fi ls h
  refine ⟨?_, hinv, ?_, ?_⟩
  · intro part key pid fl
    exact ⟨dinsert (dgetD part key []) pid fl, dget?_dinsert_self _ _ _,
      dget?_dinsert_self _ _ _⟩
  · intro part hpart kp hkp p0 hall desc color
    have hnd := hinv part hpart kp hkp
    match hm : kp.2 with
    | [] => rfl
    | [x] => rfl
    | (a, fa) :: (b, fb) :: t2 =>
      exfalso
      rw [hm] at hnd hall
      simp only [List.map_cons, List.nodup_cons, List.mem_cons, not_or] at hnd
      have ha : a = p0 := hall a (by simp)
      have hb : b = p0 := hall b (by simp)
      exact hnd.1.1 (ha.trans hb.symm)
  · intro part hpart kp hkp a fa b fb t2 hm hab
    have hnd := hinv part hpart kp hkp
    rw [hm] at hnd
    simp only [List.map_cons, List.nodup_cons, List.mem_cons, not_or] at hnd
    exact hnd.1.1 hab

/-- Witness for C10 on a concrete correlated input: two processes sharing a
unix inode. -/
theorem c10_no_self_links_witness :
    ∃ ls, find_links
        [(PyVal.int 1, [(PyVal.int 3, [('t', PyVal.str ("unix".toList)), ('i', PyVal.int 500)])]),
         (PyVal.int 2, [(PyVal.int 4, [('t', PyVal.str ("unix".toList)), ('i', PyVal.int 500)])])] =
      .ok ls ∧
    ∀ kp ∈ ls.unix, ((kp.2).map Prod.fst).Nodup := by
  cases hr : find_links
      [(PyVal.int 1, [(PyVal.int 3, [('t', PyVal.str ("unix".toList)), ('i', PyVal.int 500)])]),
       (PyVal.int 2, [(PyVal.int 4, [('t', PyVal.str ("unix".toList)), ('i', PyVal.int 500)])])] with
  | error e =>
    have hok : (find_links
        [(PyVal.int 1, [(PyVal.int 3, [('t', PyVal.str ("unix".toList)), ('i', PyVal.int 500)])]),
         (PyVal.int 2, [(PyVal.int 4, [('t', PyVal.str ("unix".toList)), ('i', PyVal.int 500)])])]).isOk = true := by
      decide
    rw [hr] at hok
    cases hok
  | ok ls =>
    exact ⟨ls, rfl, fun kp hkp =>
      (c10_no_self_links _ ls hr).2.1 ls.unix (by simp) kp hkp⟩

/-! ### Claim C4: kernel-thread exclusion -/

theorem linkEntries_fst (fi : FileInfo) (e : PyVal × FieldDict)
    (he : e ∈ linkEntries fi) : e.1 ∈ fi.map Prod.fst := by
  unfold linkEntries at he
  rw [List.mem_flatMap] at he
  obtain ⟨x, hx, he2⟩ := he
  rw [List.mem_map] at he2
  obtain ⟨d, _, hd2⟩ := he2
  rw [← hd2]
  exact List.mem_map_of_mem Prod.fst hx

theorem partAdd_pidBound (part : Part) (key : Option PyVal) (pid : PyVal)
    (fl : FieldDict) (P : PyVal → Prop)
    (h : ∀ kp ∈ part, ∀ q ∈ (kp.2).map Prod.fst, P q) (hpid : P pid) :
    ∀ kp ∈ partAdd part key pid fl, ∀ q ∈ (kp.2).map Prod.fst, P q := by
  intro kp hkp q hq
  rcases mem_dinsert _ _ _ _ hkp with h1 | h1
  · rw [h1] at hq
    simp only at hq
    rcases dkeys_dinsert_sub _ _ _ _ hq with h2 | h2
    · exact h2 ▸ hpid
    · unfold dgetD at h2
      cases hg : dget? part key with
      | none => rw [hg] at h2; cases h2
      | some d =>
        rw [hg] at h2
        exact h (key, d) (dget?_mem _ _ _ hg) q h2
  · exact h kp h1 q hq

/-- The pid-boundedness invariant of the correlator fold. -/
def PidBound (ls : Links) (P : PyVal → Prop) : Prop :=
  ∀ part ∈ [ls.unix, ls.fifo, ls.pipe, ls.tcp, ls.udp], ∀ kp ∈ part,
    ∀ q ∈ (kp.2).map Prod.fst, P q

theorem linkStep_pidBound (ls ls2 : Links) (e : PyVal × FieldDict)
    (P : PyVal → Prop) (h : PidBound ls P) (hpid : P e.1)
    (hs : linkStep ls e = .ok ls2) : PidBound ls2 P := by
  have hu := h ls.unix (by simp)
  have hf := h ls.fifo (by simp)
  have hp := h ls.pipe (by simp)
  have ht := h ls.tcp (by simp)
  have hd := h ls.udp (by simp)
  rcases linkStep_shape ls ls2 e hs with h1 | ⟨k, h1⟩ | ⟨k, h1⟩ | ⟨k, h1⟩ | ⟨k, h1⟩ <;>
    subst h1 <;> intro part hpart <;>
    simp only [List.mem_cons, List.mem_singleton, List.not_mem_nil, or_false] at hpart <;>
    rcases hpart with h2 | h2 | h2 | h2 | h2 <;> subst h2 <;>
    first
      | exact partAdd_pidBound _ k _ _ P hu hpid
      | exact partAdd_pidBound _ k _ _ P hf hpid
      | exact partAdd_pidBound _ k _ _ P ht hpid
      | exact partAdd_pidBound _ k _ _ P hd hpid
      | exact hu
      | exact hf
      | exact hp
      | exact ht
      | exact hd

/-- C4: a process id classified as a kernel thread (its descriptor set has a
`txt` descriptor with the "unknown" type) does not survive the filter — it
is absent from the filtered `file_info`, so `generate_dot` (which emits one
node per filtered `file_info` key) emits no node statement for it — and no
pid dictionary of any correlation partition contains it, so no emitted link
involves it even when another retained process holds a matching resource
key. -/
theorem c4_kernel_thread_exclusion (fi : FileInfo) (pid : PyVal)
    (hk : pid ∈ find_kernel_threads fi) :
    pid ∉ (filterKernel fi).map Prod.fst ∧
    (∀ ls, find_links (filterKernel fi) = .ok ls →
      ∀ part ∈ [ls.unix, ls.fifo, ls.pipe, ls.tcp, ls.udp], ∀ kp ∈ part,
        pid ∉ (kp.2).map Prod.fst) := by
  have hnotin : pid ∉ (filterKernel fi).map Prod.fst := by
    intro hmem
    rw [List.mem_map] at hmem
    obtain ⟨e, he, hq⟩ := hmem
    unfold filterKernel at he
    rw [List.mem_filter] at he
    have := of_decide_eq_true he.2
    exact this (hq ▸ hk)
  refine ⟨hnotin, ?_⟩
  intro ls hls part hpart kp hkp hmem
  have hbound : PidBound ls (fun q => q ≠ pid) := by
    refine efoldlM_inv (fun s => PidBound s (fun q => q ≠ pid)) linkStep
      (linkEntries (filterKernel fi)) _ ?_ ?_ ls hls
    · intro part2 hpart2 kp2 hkp2
      simp only [List.mem_cons, List.not_mem_nil, or_false] at hpart2
      rcases hpart2 with h2 | h2 | h2 | h2 | h2 <;> subst h2 <;> cases hkp2
    · intro s1 a s2 ha hP hstep
      refine linkStep_pidBound s1 s2 a _ hP ?_ hstep
      intro heq
      exact hnotin (heq ▸ linkEntries_fst (filterKernel fi) a ha)
  exact hbound part hpart kp hkp pid hmem rfl

/-- Witness for C4: pid 5 is a kernel thread (its `txt` descriptor has
`t = unknown`) while pid 2 holds a unix descriptor. -/
theorem c4_kernel_thread_exclusion_witness :
    PyVal.int 5 ∉
      (filterKernel
        [(PyVal.int 5, [(PyVal.str ("txt".toList), [('t', PyVal.str ("unknown".toList))])]),
         (PyVal.int 2, [(PyVal.int 4, [('t', PyVal.str ("unix".toList)), ('i', PyVal.int 500)])])]).map
        Prod.fst := by
  exact (c4_kernel_thread_exclusion
    [(PyVal.int 5, [(PyVal.str ("txt".toList), [('t', PyVal.str ("unknown".toList))])]),
     (PyVal.int 2, [(PyVal.int 4, [('t', PyVal.str ("unix".toList)), ('i', PyVal.int 500)])])]
    (PyVal.int 5) (by decide)).1

/-! ### Ordering lemmas for the canonical network key -/

theorem pyLt_asymm (a b : Str) (h : pyLt a b = true) : pyLt b a = false := by
  induction a generalizing b with
  | nil =>
    cases b with
    | nil => simp [pyLt] at h
    | cons y ys => simp [pyLt]
  | cons x xs ih =>
    cases b with
    | nil => simp [pyLt] at h
    | cons y ys =>
      simp only [pyLt] at h ⊢
      by_cases h1 : x < y
      · have h2 : ¬ y < x := lt_asymm h1
        simp [h1, h2]
      · rw [if_neg h1] at h
        by_cases h2 : y < x
        · rw [if_pos h2] at h; cases h
        · rw [if_neg h2] at h
          simp [h1, h2, ih ys h]

theorem pyLt_antisymm (a b : Str) (h1 : pyLt a b = false)
    (h2 : pyLt b a = false) : a = b := by
  induction a generalizing b with
  | nil =>
    cases b with
    | nil => rfl
    | cons y ys => simp [pyLt] at h1
  | cons x xs ih =>
    cases b with
    | nil => simp [pyLt] at h2
    | cons y ys =>
      simp only [pyLt] at h1 h2
      by_cases hxy : x < y
      · rw [if_pos hxy] at h1; cases h1
      · rw [if_neg hxy] at h1
        by_cases hyx : y < x
        · rw [if_pos hyx] at h2; cases h2
        · rw [if_neg hyx] at h1
          rw [if_neg hyx, if_neg hxy] at h2
          have hc : x = y := le_antisymm (not_lt.mp hyx) (not_lt.mp hxy)
          rw [hc, ih ys h1 h2]

theorem sorted2_comm (a b : Str) : sorted2 a b = sorted2 b a := by
  unfold sorted2
  cases h1 : pyLt b a with
  | true =>
    have h2 := pyLt_asymm b a h1
    simp [h1, h2]
  | false =>
    cases h2 : pyLt a b with
    | true => simp [h1, h2]
    | false =>
      have hc := pyLt_antisymm a b h2 h1
      simp [h1, h2, hc]

theorem canonKey_comm (a b : Str) : canonKey a b = canonKey b a := by
  unfold canonKey
  rw [sorted2_comm]

/-! ### Claim C2: canonical network keying -/

/-- C2: two IPv4/IPv6 descriptors whose name fields record the same two
endpoint strings in opposite order (splitting at the `->` separator gives
`(A, B)` for one and `(B, A)` for the other), held by two different retained
process ids and declaring protocol TCP, correlate to exactly one entry of
the tcp partition — its key the canonical key (the two endpoint strings
sorted lexicographically, rejoined with the fixed `\n` delimiter) and its
pid dictionary exactly the two processes — i.e. one TCP link, not two and
not zero. A descriptor whose name contains no `->` separator is excluded
from network correlation (second conjunct). -/
theorem c2_canonical_network_key (p1 p2 fd1 fd2 : PyVal) (f1 f2 : FieldDict)
    (t1 t2 : PyVal) (n1 n2 A B : Str)
    (hp : p1 ≠ p2)
    (ht1g : dget? f1 't' = some t1)
    (ht1 : t1 = PyVal.str ("IPv4".toList) ∨ t1 = PyVal.str ("IPv6".toList))
    (hn1 : dget? f1 'n' = some (PyVal.str n1))
    (hP1 : dget? f1 'P' = some (PyVal.str ("TCP".toList)))
    (hs1 : splitArrow n1 = some (A, B))
    (ht2g : dget? f2 't' = some t2)
    (ht2 : t2 = PyVal.str ("IPv4".toList) ∨ t2 = PyVal.str ("IPv6".toList))
    (hn2 : dget? f2 'n' = some (PyVal.str n2))
    (hP2 : dget? f2 'P' = some (PyVal.str ("TCP".toList)))
    (hs2 : splitArrow n2 = some (B, A)) :
    find_links [(p1, [(fd1, f1)]), (p2, [(fd2, f2)])] =
      .ok ⟨[], [], [], [(some (PyVal.str (canonKey A B)), [(p1, f1), (p2, f2)])], []⟩ ∧
    (∀ p fd f n, dget? f 't' = some (PyVal.str ("IPv4".toList)) →
      dget? f 'n' = some (PyVal.str n) → splitArrow n = Option.none →
      find_links [(p, [(fd, f)])] = .ok ⟨[], [], [], [], []⟩) := by
  constructor
  · have e1 : linkStep ⟨[], [], [], [], []⟩ (p1, f1) =
        .ok ⟨[], [], [], [(some (PyVal.str (canonKey A B)), [(p1, f1)])], []⟩ := by
      rcases ht1 with h | h <;> rw [h] at ht1g <;>
        simp [linkStep, ht1g, hn1, hs1, hP1, partAdd, dgetD, dget?, dinsert]
    have e2 : linkStep ⟨[], [], [], [(some (PyVal.str (canonKey A B)), [(p1, f1)])], []⟩
        (p2, f2) =
        .ok ⟨[], [], [], [(some (PyVal.str (canonKey A B)), [(p1, f1), (p2, f2)])], []⟩ := by
      rcases ht2 with h | h <;> rw [h] at ht2g <;>
        · simp only [linkStep, ht2g, hn2, hs2, hP2]
          rw [canonKey_comm B A]
          simp [partAdd, dgetD, dget?, dinsert, hp]
    simp only [find_links, linkEntries, List.flatMap_cons, List.flatMap_nil,
      List.map_cons, List.map_nil, List.append_nil, List.cons_append, List.nil_append]
    simp only [efoldlM, e1, e2]
  · intro p fd f n htf hnf hsf
    simp [find_links, linkEntries, efoldlM, linkStep, htf, hnf, hsf]

/-- Witness for C2 at the spec's endpoint pair `"A:80->B:1234"` /
`"B:1234->A:80"`. -/
theorem c2_canonical_network_key_witness :
    find_links
        [(PyVal.int 1, [(PyVal.int 10,
            [('t', PyVal.str ("IPv4".toList)), ('n', PyVal.str ("A:80->B:1234".toList)),
             ('P', PyVal.str ("TCP".toList))])]),
         (PyVal.int 2, [(PyVal.int 11,
            [('t', PyVal.str ("IPv6".toList)), ('n', PyVal.str ("B:1234->A:80".toList)),
             ('P', PyVal.str ("TCP".toList))])])] =
      .ok ⟨[], [], [],
        [(some (PyVal.str (canonKey ("A:80".toList) ("B:1234".toList))),
          [(PyVal.int 1,
            [('t', PyVal.str ("IPv4".toList)), ('n', PyVal.str ("A:80->B:1234".toList)),
             ('P', PyVal.str ("TCP".toList))]),
           (PyVal.int 2,
            [('t', PyVal.str ("IPv6".toList)), ('n', PyVal.str ("B:1234->A:80".toList)),
             ('P', PyVal.str ("TCP".toList))])])], []⟩ := by
  exact (c2_canonical_network_key (PyVal.int 1) (PyVal.int 2) (PyVal.int 10) (PyVal.int 11)
    [('t', PyVal.str ("IPv4".toList)), ('n', PyVal.str ("A:80->B:1234".toList)),
     ('P', PyVal.str ("TCP".toList))]
    [('t', PyVal.str ("IPv6".toList)), ('n', PyVal.str ("B:1234->A:80".toList)),
     ('P', PyVal.str ("TCP".toList))]
    (PyVal.str ("IPv4".toList)) (PyVal.str ("IPv6".toList))
    ("A:80->B:1234".toList) ("B:1234->A:80".toList)
    ("A:80".toList) ("B:1234".toList)
    (by decide) rfl (Or.inl rfl) rfl rfl (by decide)
    rfl (Or.inr rfl) rfl rfl (by decide)).1

/-! ### Claim C3: block-structured inputs and the parser simulation

A "permutation of the line sequence consistent with the stateful
open-context rule" keeps every attribute line attached to the same
process/descriptor record; such permutations are exactly the reorderings of
whole record blocks.  A `Block` is one process record: its `p` line's raw
value, its process attribute lines, and its descriptor records (each an `f`
line's raw value plus attribute lines). -/

structure Block where
  pidv : Str
  pattrs : List (Char × Str)
  descs : List (Str × List (Char × Str))
deriving DecidableEq, Repr

def attrLine (a : Char × Str) : Str := a.1 :: a.2

def descLines (d : Str × List (Char × Str)) : List Str :=
  ('f' :: d.1) :: d.2.map attrLine

def blockLines (b : Block) : List Str :=
  ('p' :: b.pidv) :: (b.pattrs.map attrLine ++ b.descs.flatMap descLines)

def flattenBlocks (bs : List Block) : List Str := bs.flatMap blockLines

/-- An attribute line must not itself be a structural (`p`/`f`) line. -/
def goodAttr (a : Char × Str) : Prop := a.1 ≠ 'p' ∧ a.1 ≠ 'f'

def WFBlock (b : Block) : Prop :=
  (∀ a ∈ b.pattrs, goodAttr a) ∧ (∀ d ∈ b.descs, ∀ a ∈ d.2, goodAttr a)

def Block.pid (b : Block) : PyVal := decodeVal b.pidv

instance (a : Char × Str) : Decidable (goodAttr a) := by
  unfold goodAttr
  infer_instance

instance (b : Block) : Decidable (WFBlock b) := by
  unfold WFBlock
  infer_instance

/-- The attribute dictionary a run of attribute lines accumulates. -/
def applyAttrs (d : FieldDict) (ats : List (Char × Str)) : FieldDict :=
  ats.foldl (fun d a => dinsert d a.1 (decodeVal a.2)) d

/-- The fd dictionary a run of descriptor records accumulates. -/
def blockFdm (fdm : FdDict) (ds : List (Str × List (Char × Str))) : FdDict :=
  ds.foldl (fun fdm d =>
    dinsert fdm (decodeVal d.1)
      (applyAttrs (dgetD fdm (decodeVal d.1) []) d.2)) fdm

def applyBlockPi (pi_ : ProcInfo) (b : Block) : ProcInfo :=
  dinsert pi_ b.pid (applyAttrs (dgetD pi_ b.pid []) b.pattrs)

def applyBlockFi (fi : FileInfo) (b : Block) : FileInfo :=
  if b.descs = [] then fi
  else dinsert fi b.pid (blockFdm (dgetD fi b.pid []) b.descs)

def buildPi (pi_ : ProcInfo) (bs : List Block) : ProcInfo := bs.foldl applyBlockPi pi_

def buildFi (fi : FileInfo) (bs : List Block) : FileInfo := bs.foldl applyBlockFi fi

theorem parse_proc_attrs (ats : List (Char × Str)) (hwf : ∀ a ∈ ats, goodAttr a)
    (pi0 : ProcInfo) (fi0 : FileInfo) (pid : PyVal) (d0 : FieldDict)
    (hget : dget? pi0 pid = some d0) (rest : List Str) :
    efoldlM parseStep ⟨pi0, fi0, .proc pid⟩ (ats.map attrLine ++ rest) =
    efoldlM parseStep ⟨dinsert pi0 pid (applyAttrs d0 ats), fi0, .proc pid⟩ rest := by
  induction ats generalizing pi0 d0 with
  | nil =>
    simp only [List.map_nil, List.nil_append, applyAttrs, List.foldl_nil]
    rw [dinsert_self_of_get pi0 pid d0 hget]
  | cons a ats ih =>
    obtain ⟨hap, haf⟩ := hwf a (List.mem_cons_self _ _)
    simp only [List.map_cons, List.cons_append, efoldlM]
    have hstep : parseStep ⟨pi0, fi0, .proc pid⟩ (attrLine a) =
        .ok ⟨dinsert pi0 pid (dinsert d0 a.1 (decodeVal a.2)), fi0, .proc pid⟩ := by
      simp only [attrLine, parseStep]
      rw [if_neg hap, if_neg haf]
      rw [dmodify_eq_dinsert pi0 pid _ d0 hget]
    rw [hstep]
    have ih2 := ih (fun x hx => hwf x (List.mem_cons_of_mem _ hx))
      (dinsert pi0 pid (dinsert d0 a.1 (decodeVal a.2)))
      (dinsert d0 a.1 (decodeVal a.2)) (dget?_dinsert_self _ _ _)
    simp only [List.append_eq] at ih2 ⊢
    rw [ih2, dinsert_dinsert]
    rfl

theorem parse_file_attrs (ats : List (Char × Str)) (hwf : ∀ a ∈ ats, goodAttr a)
    (pi0 : ProcInfo) (fi0 : FileInfo) (pid fd : PyVal) (fdm0 : FdDict) (d0 : FieldDict)
    (hgetp : dget? fi0 pid = some fdm0) (hgetf : dget? fdm0 fd = some d0)
    (rest : List Str) :
    efoldlM parseStep ⟨pi0, fi0, .file pid fd⟩ (ats.map attrLine ++ rest) =
    efoldlM parseStep
      ⟨pi0, dinsert fi0 pid (dinsert fdm0 fd (applyAttrs d0 ats)), .file pid fd⟩ rest := by
  induction ats generalizing fi0 fdm0 d0 with
  | nil =>
    simp only [List.map_nil, List.nil_append, applyAttrs, List.foldl_nil]
    rw [dinsert_self_of_get fdm0 fd d0 hgetf, dinsert_self_of_get fi0 pid fdm0 hgetp]
  | cons a ats ih =>
    obtain ⟨hap, haf⟩ := hwf a (List.mem_cons_self _ _)
    simp only [List.map_cons, List.cons_append, efoldlM]
    have hstep : parseStep ⟨pi0, fi0, .file pid fd⟩ (attrLine a) =
        .ok ⟨pi0, dinsert fi0 pid (dinsert fdm0 fd (dinsert d0 a.1 (decodeVal a.2))),
             .file pid fd⟩ := by
      simp only [attrLine, parseStep]
      rw [if_neg hap, if_neg haf]
      rw [dmodify_eq_dinsert fi0 pid _ fdm0 hgetp,
          dmodify_eq_dinsert fdm0 fd _ d0 hgetf]
    rw [hstep]
    have ih2 := ih (fun x hx => hwf x (List.mem_cons_of_mem _ hx))
      (dinsert fi0 pid (dinsert fdm0 fd (dinsert d0 a.1 (decodeVal a.2))))
      (dinsert fdm0 fd (dinsert d0 a.1 (decodeVal a.2)))
      (dinsert d0 a.1 (decodeVal a.2))
      (dget?_dinsert_self _ _ _) (dget?_dinsert_self _ _ _)
    simp only [List.append_eq] at ih2 ⊢
    rw [ih2, dinsert_dinsert, dinsert_dinsert]
    rfl

theorem parse_desc (dsc : Str × List (Char × Str))
    (hwf : ∀ a ∈ dsc.2, goodAttr a)
    (pi0 : ProcInfo) (fi0 : FileInfo) (pid : PyVal) (ctx0 : Ctx)
    (hctx : ctx0.curPid = some pid) (rest : List Str) :
    efoldlM parseStep ⟨pi0, fi0, ctx0⟩ (descLines dsc ++ rest) =
    efoldlM parseStep
      ⟨pi0,
       dinsert fi0 pid (dinsert (dgetD fi0 pid [])
         (decodeVal dsc.1)
         (applyAttrs (dgetD (dgetD fi0 pid []) (decodeVal dsc.1) []) dsc.2)),
       .file pid (decodeVal dsc.1)⟩ rest := by
  obtain ⟨fdv, ats⟩ := dsc
  simp only [descLines, List.cons_append, efoldlM]
  have hstep : parseStep ⟨pi0, fi0, ctx0⟩ ('f' :: fdv) =
      .ok ⟨pi0,
           dinsert fi0 pid (dinsert (dgetD fi0 pid []) (decodeVal fdv)
             (dgetD (dgetD fi0 pid []) (decodeVal fdv) [])),
           .file pid (decodeVal fdv)⟩ := by
    simp only [parseStep, if_true]
    simp only [hctx]
    rw [dtouch_eq_dinsert fi0 pid []]
    rw [dmodify_eq_dinsert _ pid _ (dgetD fi0 pid []) (dget?_dinsert_self _ _ _)]
    rw [dinsert_dinsert]
    rw [dtouch_eq_dinsert (dgetD fi0 pid []) (decodeVal fdv) []]
    rw [if_neg (show ¬ ('f' = 'p') by decide)]
  rw [hstep]
  have h2 := parse_file_attrs ats hwf pi0
    (dinsert fi0 pid (dinsert (dgetD fi0 pid []) (decodeVal fdv)
      (dgetD (dgetD fi0 pid []) (decodeVal fdv) [])))
    pid (decodeVal fdv)
    (dinsert (dgetD fi0 pid []) (decodeVal fdv)
      (dgetD (dgetD fi0 pid []) (decodeVal fdv) []))
    (dgetD (dgetD fi0 pid []) (decodeVal fdv) [])
    (dget?_dinsert_self _ _ _) (dget?_dinsert_self _ _ _) rest
  simp only [List.append_eq] at h2 ⊢
  rw [h2, dinsert_dinsert, dinsert_dinsert]

theorem parse_descs (ds : List (Str × List (Char × Str)))
    (hwf : ∀ d ∈ ds, ∀ a ∈ d.2, goodAttr a)
    (pi0 : ProcInfo) (fi0 : FileInfo) (pid : PyVal) (ctx0 : Ctx)
    (hctx : ctx0.curPid = some pid) (fdm0 : FdDict)
    (hpres : dget? fi0 pid = some fdm0) (rest : List Str) :
    ∃ ctx2, ctx2.curPid = some pid ∧
      efoldlM parseStep ⟨pi0, fi0, ctx0⟩ (ds.flatMap descLines ++ rest) =
      efoldlM parseStep ⟨pi0, dinsert fi0 pid (blockFdm fdm0 ds), ctx2⟩ rest := by
  induction ds generalizing fi0 fdm0 ctx0 with
  | nil =>
    refine ⟨ctx0, hctx, ?_⟩
    simp only [List.flatMap_nil, List.nil_append, blockFdm, List.foldl_nil]
    rw [dinsert_self_of_get fi0 pid fdm0 hpres]
  | cons d ds ih =>
    simp only [List.flatMap_cons, List.append_assoc]
    have h1 := parse_desc d (hwf d (List.mem_cons_self _ _)) pi0 fi0 pid ctx0 hctx
      (ds.flatMap descLines ++ rest)
    have hgd : dgetD fi0 pid [] = fdm0 := by
      unfold dgetD
      rw [hpres]
      rfl
    rw [hgd] at h1
    rw [h1]
    have ih2 := ih (fun x hx => hwf x (List.mem_cons_of_mem _ hx))
      (dinsert fi0 pid (dinsert fdm0 (decodeVal d.1)
        (applyAttrs (dgetD fdm0 (decodeVal d.1) []) d.2)))
      (.file pid (decodeVal d.1)) rfl
      (dinsert fdm0 (decodeVal d.1)
        (applyAttrs (dgetD fdm0 (decodeVal d.1) []) d.2))
      (dget?_dinsert_self _ _ _)
    obtain ⟨ctx2, hctx2, heq⟩ := ih2
    refine ⟨ctx2, hctx2, ?_⟩
    rw [heq, dinsert_dinsert]
    rfl

theorem parse_block (b : Block) (hwf : WFBlock b) (st : ParseSt) (rest : List Str) :
    ∃ ctx2, efoldlM parseStep st (blockLines b ++ rest) =
      efoldlM parseStep ⟨applyBlockPi st.pi b, applyBlockFi st.fi b, ctx2⟩ rest := by
  obtain ⟨hwfp, hwfd⟩ := hwf
  simp only [blockLines, List.cons_append, List.append_assoc, efoldlM]
  have hstep : parseStep st ('p' :: b.pidv) =
      .ok ⟨dinsert st.pi b.pid (dgetD st.pi b.pid []), st.fi, .proc b.pid⟩ := by
    simp only [parseStep, if_true, Block.pid]
    rw [dtouch_eq_dinsert]
  rw [hstep]
  have h1 := parse_proc_attrs b.pattrs hwfp
    (dinsert st.pi b.pid (dgetD st.pi b.pid [])) st.fi b.pid
    (dgetD st.pi b.pid []) (dget?_dinsert_self _ _ _)
    (b.descs.flatMap descLines ++ rest)
  simp only [List.append_eq] at h1 ⊢
  rw [List.append_assoc]
  rw [h1, dinsert_dinsert]
  cases hd : b.descs with
  | nil =>
    refine ⟨.proc b.pid, ?_⟩
    simp only [hd, List.flatMap_nil, List.nil_append, applyBlockPi, applyBlockFi,
      if_true]
  | cons d ds =>
    have h2 := parse_desc d (hwfd d (by rw [hd]; exact List.mem_cons_self _ _))
      (dinsert st.pi b.pid (applyAttrs (dgetD st.pi b.pid []) b.pattrs)) st.fi b.pid
      (.proc b.pid) rfl (ds.flatMap descLines ++ rest)
    simp only [hd, List.flatMap_cons, List.append_assoc]
    rw [h2]
    have h3 := parse_descs ds
      (fun x hx => hwfd x (by rw [hd]; exact List.mem_cons_of_mem _ hx))
      (dinsert st.pi b.pid (applyAttrs (dgetD st.pi b.pid []) b.pattrs))
      (dinsert st.fi b.pid (dinsert (dgetD st.fi b.pid []) (decodeVal d.1)
        (applyAttrs (dgetD (dgetD st.fi b.pid []) (decodeVal d.1) []) d.2)))
      b.pid (.file b.pid (decodeVal d.1)) rfl
      (dinsert (dgetD st.fi b.pid []) (decodeVal d.1)
        (applyAttrs (dgetD (dgetD st.fi b.pid []) (decodeVal d.1) []) d.2))
      (dget?_dinsert_self _ _ _) rest
    obtain ⟨ctx2, _, heq⟩ := h3
    refine ⟨ctx2, ?_⟩
    rw [heq, dinsert_dinsert]
    have hfi : applyBlockFi st.fi b =
        dinsert st.fi b.pid
          (blockFdm
            (dinsert (dgetD st.fi b.pid []) (decodeVal d.1)
              (applyAttrs (dgetD (dgetD st.fi b.pid []) (decodeVal d.1) []) d.2)) ds) := by
      unfold applyBlockFi
      rw [if_neg (by rw [hd]; exact List.cons_ne_nil d ds), hd]
      rfl
    rw [hfi]
    rfl

theorem parse_blocks (bs : List Block) (hwf : ∀ b ∈ bs, WFBlock b) (st : ParseSt) :
    ∃ ctx2, efoldlM parseStep st (flattenBlocks bs) =
      .ok ⟨buildPi st.pi bs, buildFi st.fi bs, ctx2⟩ := by
  induction bs generalizing st with
  | nil => exact ⟨st.ctx, rfl⟩
  | cons b bs ih =>
    have hsplit : flattenBlocks (b :: bs) = blockLines b ++ flattenBlocks bs := by
      simp [flattenBlocks, List.flatMap_cons]
    rw [hsplit]
    obtain ⟨ctx1, h1⟩ := parse_block b (hwf b (List.mem_cons_self _ _)) st (flattenBlocks bs)
    rw [h1]
    obtain ⟨ctx2, h2⟩ := ih (fun x hx => hwf x (List.mem_cons_of_mem _ hx))
      ⟨applyBlockPi st.pi b, applyBlockFi st.fi b, ctx1⟩
    exact ⟨ctx2, h2⟩

theorem parse_lsof_blocks (bs : List Block) (hwf : ∀ b ∈ bs, WFBlock b) :
    parse_lsof (flattenBlocks bs) = .ok (buildPi [] bs, buildFi [] bs) := by
  obtain ⟨ctx2, h⟩ := parse_blocks bs hwf ⟨[], [], .start⟩
  unfold parse_lsof
  rw [h]

theorem dget?_append [DecidableEq K] (l1 l2 : Dict K V) (k : K) :
    dget? (l1 ++ l2) k =
      match dget? l1 k with
      | some v => some v
      | none => dget? l2 k := by
  induction l1 with
  | nil => simp [dget?]
  | cons hd t ih =>
    by_cases hk : hd.1 = k
    · simp [dget?, hk]
    · simp [dget?, hk, ih]

/-- The process-table entry one block contributes. -/
def blockProcEntry (b : Block) : PyVal × FieldDict := (b.pid, applyAttrs [] b.pattrs)

/-- The file-table entry one block contributes (none when it has no
descriptor records). -/
def blockFiEntry (b : Block) : Option (PyVal × FdDict) :=
  if b.descs = [] then none else some (b.pid, blockFdm [] b.descs)

theorem buildPi_eq (bs : List Block) (pi0 : ProcInfo)
    (hfresh : ∀ b ∈ bs, dget? pi0 b.pid = none)
    (hnd : (bs.map Block.pid).Nodup) :
    buildPi pi0 bs = pi0 ++ bs.map blockProcEntry := by
  induction bs generalizing pi0 with
  | nil => simp [buildPi]
  | cons b bs ih =>
    simp only [List.map_cons, List.nodup_cons] at hnd
    have hfb := hfresh b (List.mem_cons_self _ _)
    have hstep : applyBlockPi pi0 b = pi0 ++ [blockProcEntry b] := by
      unfold applyBlockPi blockProcEntry
      have hg : dgetD pi0 b.pid [] = [] := by
        unfold dgetD
        rw [hfb]
        rfl
      rw [hg, dinsert_append_of_none pi0 b.pid _ hfb]
    have hfresh2 : ∀ b2 ∈ bs, dget? (pi0 ++ [blockProcEntry b]) b2.pid = none := by
      intro b2 hb2
      rw [dget?_append]
      rw [hfresh b2 (List.mem_cons_of_mem _ hb2)]
      simp only [dget?, blockProcEntry]
      rw [if_neg]
      intro hcontra
      exact hnd.1 (hcontra ▸ List.mem_map_of_mem Block.pid hb2)
    calc buildPi pi0 (b :: bs) = buildPi (applyBlockPi pi0 b) bs := rfl
      _ = applyBlockPi pi0 b ++ bs.map blockProcEntry := ih _ (hstep ▸ hfresh2) hnd.2
      _ = pi0 ++ blockProcEntry b :: bs.map blockProcEntry := by
          rw [hstep, List.append_assoc]
          rfl

theorem buildFi_eq (bs : List Block) (fi0 : FileInfo)
    (hfresh : ∀ b ∈ bs, dget? fi0 b.pid = none)
    (hnd : (bs.map Block.pid).Nodup) :
    buildFi fi0 bs = fi0 ++ bs.filterMap blockFiEntry := by
  induction bs generalizing fi0 with
  | nil => simp [buildFi]
  | cons b bs ih =>
    simp only [List.map_cons, List.nodup_cons] at hnd
    have hfb := hfresh b (List.mem_cons_self _ _)
    by_cases hd : b.descs = []
    · have hstep : applyBlockFi fi0 b = fi0 := by
        unfold applyBlockFi
        rw [if_pos hd]
      have hent : blockFiEntry b = none := by
        unfold blockFiEntry
        rw [if_pos hd]
      calc buildFi fi0 (b :: bs) = buildFi (applyBlockFi fi0 b) bs := rfl
        _ = fi0 ++ bs.filterMap blockFiEntry := by
            rw [hstep]
            exact ih fi0 (fun b2 hb2 => hfresh b2 (List.mem_cons_of_mem _ hb2)) hnd.2
        _ = fi0 ++ (b :: bs).filterMap blockFiEntry := by
            rw [List.filterMap_cons, hent]
    · have hstep : applyBlockFi fi0 b = fi0 ++ [(b.pid, blockFdm [] b.descs)] := by
        unfold applyBlockFi
        rw [if_neg hd]
        have hg : dgetD fi0 b.pid [] = [] := by
          unfold dgetD
          rw [hfb]
          rfl
        rw [hg, dinsert_append_of_none fi0 b.pid _ hfb]
      have hent : blockFiEntry b = some (b.pid, blockFdm [] b.descs) := by
        unfold blockFiEntry
        rw [if_neg hd]
      have hfresh2 : ∀ b2 ∈ bs, dget? (fi0 ++ [(b.pid, blockFdm [] b.descs)]) b2.pid = none := by
        intro b2 hb2
        rw [dget?_append]
        rw [hfresh b2 (List.mem_cons_of_mem _ hb2)]
        simp only [dget?]
        rw [if_neg]
        intro hcontra
        exact hnd.1 (hcontra ▸ List.mem_map_of_mem Block.pid hb2)
      calc buildFi fi0 (b :: bs) = buildFi (applyBlockFi fi0 b) bs := rfl
        _ = applyBlockFi fi0 b ++ bs.filterMap blockFiEntry := ih _ (hstep ▸ hfresh2) hnd.2
        _ = fi0 ++ (b :: bs).filterMap blockFiEntry := by
            rw [hstep, List.append_assoc, List.filterMap_cons, hent]
            rfl

theorem blockFiEntry_fst (b : Block) (e : PyVal × FdDict)
    (h : blockFiEntry b = some e) : e.1 = b.pid := by
  unfold blockFiEntry at h
  by_cases hd : b.descs = []
  · rw [if_pos hd] at h; cases h
  · rw [if_neg hd] at h
    injection h with h
    rw [← h]

theorem fiEntry_keys_sub (bs : List Block) (q : PyVal)
    (hq : q ∈ (bs.filterMap blockFiEntry).map Prod.fst) : q ∈ bs.map Block.pid := by
  rw [List.mem_map] at hq
  obtain ⟨e, he, hq⟩ := hq
  rw [List.mem_filterMap] at he
  obtain ⟨b, hb, hbe⟩ := he
  rw [← hq, blockFiEntry_fst b e hbe]
  exact List.mem_map_of_mem Block.pid hb

theorem fiEntry_keys_nodup (bs : List Block) (hnd : (bs.map Block.pid).Nodup) :
    ((bs.filterMap blockFiEntry).map Prod.fst).Nodup := by
  induction bs with
  | nil => simp
  | cons b bs ih =>
    simp only [List.map_cons, List.nodup_cons] at hnd
    rw [List.filterMap_cons]
    cases hbe : blockFiEntry b with
    | none => exact ih hnd.2
    | some e =>
      simp only [List.map_cons, List.nodup_cons]
      refine ⟨?_, ih hnd.2⟩
      intro hmem
      exact hnd.1 (blockFiEntry_fst b e hbe ▸ fiEntry_keys_sub bs e.1 hmem)

theorem piEntry_keys (bs : List Block) :
    (bs.map blockProcEntry).map Prod.fst = bs.map Block.pid := by
  rw [List.map_map]
  rfl

theorem keys_nodup_inj (l : List (K × V)) (hnd : (l.map Prod.fst).Nodup)
    (e e' : K × V) (he : e ∈ l) (he' : e' ∈ l) (hf : e.1 = e'.1) : e = e' := by
  induction l with
  | nil => cases he
  | cons x t ih =>
    simp only [List.map_cons, List.nodup_cons] at hnd
    rcases List.mem_cons.mp he with h1 | h1 <;> rcases List.mem_cons.mp he' with h2 | h2
    · rw [h1, h2]
    · exfalso
      apply hnd.1
      rw [← h1, hf]
      exact List.mem_map_of_mem Prod.fst h2
    · exfalso
      apply hnd.1
      rw [← h2, ← hf]
      exact List.mem_map_of_mem Prod.fst h1
    · exact ih hnd.2 h1 h2

/-- With unique pids, the kernel-thread membership test is pointwise: an
entry is dropped exactly when its own descriptor set marks it as a kernel
thread. -/
theorem filterKernel_pointwise (fi : FileInfo) (hnd : (fi.map Prod.fst).Nodup) :
    filterKernel fi = fi.filter (fun e => ! isKernel e.2) := by
  unfold filterKernel
  apply List.filter_congr
  intro e he
  by_cases hk : isKernel e.2
  · have hmem : e.1 ∈ find_kernel_threads fi := by
      unfold find_kernel_threads
      rw [List.mem_filterMap]
      exact ⟨e, he, by rw [if_pos hk]⟩
    simp [hmem, hk]
  · have hmem : e.1 ∉ find_kernel_threads fi := by
      intro hmem
      unfold find_kernel_threads at hmem
      rw [List.mem_filterMap] at hmem
      obtain ⟨e2, he2, heq⟩ := hmem
      by_cases hk2 : isKernel e2.2
      · rw [if_pos hk2] at heq
        injection heq with heq
        have : e2 = e := keys_nodup_inj fi hnd e2 e he2 he heq
        exact hk (this ▸ hk2)
      · rw [if_neg hk2] at heq
        cases heq
    simp [hmem, hk]

theorem emapM_congr (f g : α → Except Err β) (l : List α)
    (h : ∀ x ∈ l, f x = g x) : emapM f l = emapM g l := by
  induction l with
  | nil => rfl
  | cons x t ih =>
    simp only [emapM, h x (List.mem_cons_self _ _),
      ih (fun y hy => h y (List.mem_cons_of_mem _ hy))]

theorem emapM_ok_forall (f : α → Except Err β) (l : List α) (r : List β)
    (h : emapM f l = .ok r) : ∀ x ∈ l, ∃ y, f x = .ok y := by
  induction l generalizing r with
  | nil => intro x hx; cases hx
  | cons a t ih =>
    intro x hx
    simp only [emapM] at h
    cases hfa : f a with
    | error e => rw [hfa] at h; cases h
    | ok y =>
      rw [hfa] at h
      cases hft : emapM f t with
      | error e => rw [hft] at h; cases h
      | ok ys =>
        rcases List.mem_cons.mp hx with h1 | h1
        · exact ⟨y, h1 ▸ hfa⟩
        · exact ih ys hft x h1

theorem emapM_ok_of_forall (f : α → Except Err β) (l : List α)
    (h : ∀ x ∈ l, ∃ y, f x = .ok y) : ∃ r, emapM f l = .ok r := by
  induction l with
  | nil => exact ⟨[], rfl⟩
  | cons a t ih =>
    obtain ⟨y, hy⟩ := h a (List.mem_cons_self _ _)
    obtain ⟨r, hr⟩ := ih (fun x hx => h x (List.mem_cons_of_mem _ hx))
    refine ⟨y :: r, ?_⟩
    simp only [emapM, hy, hr]

theorem emapM_perm (f : α → Except Err β) {l1 l2 : List α} (hp : List.Perm l1 l2)
    (r1 r2 : List β) (h1 : emapM f l1 = .ok r1) (h2 : emapM f l2 = .ok r2) :
    List.Perm r1 r2 := by
  induction hp generalizing r1 r2 with
  | nil =>
    simp only [emapM] at h1 h2
    cases h1
    cases h2
    exact List.Perm.nil
  | @cons x t1 t2 hp ih =>
    simp only [emapM] at h1 h2
    cases hfx : f x with
    | error e => rw [hfx] at h1; cases h1
    | ok y =>
      rw [hfx] at h1 h2
      cases ht1 : emapM f t1 with
      | error e => rw [ht1] at h1; cases h1
      | ok ys1 =>
        rw [ht1] at h1
        cases ht2 : emapM f t2 with
        | error e => rw [ht2] at h2; cases h2
        | ok ys2 =>
          rw [ht2] at h2
          cases h1
          cases h2
          exact List.Perm.cons y (ih ys1 ys2 ht1 ht2)
  | swap x y t =>
    simp only [emapM] at h1 h2
    cases hfy : f y with
    | error e => rw [hfy] at h1 h2; cases h1
    | ok vy =>
      rw [hfy] at h1 h2
      cases hfx : f x with
      | error e => rw [hfx] at h1 h2; cases h1
      | ok vx =>
        rw [hfx] at h1 h2
        cases hft : emapM f t with
        | error e => rw [hft] at h1 h2; cases h1
        | ok vs =>
          rw [hft] at h1 h2
          cases h1
          cases h2
          exact List.Perm.swap vx vy vs
  | @trans l1 l2 l3 h12 h23 ih1 ih2 =>
    have hall : ∀ x ∈ l2, ∃ y, f x = .ok y := by
      intro x hx
      exact emapM_ok_forall f l1 r1 h1 x (h12.mem_iff.mpr hx)
    obtain ⟨rm, hrm⟩ := emapM_ok_of_forall f l2 hall
    exact (ih1 r1 rm h1 hrm).trans (ih2 rm r2 hrm h2)

theorem nodeStmt_congr (pi1 pi2 : ProcInfo)
    (h : ∀ k, dget? pi1 k = dget? pi2 k) (pid : PyVal) :
    nodeStmt pi1 pid = nodeStmt pi2 pid := by
  unfold nodeStmt dgetD
  rw [h pid]

theorem generate_dot_nodes (pi_ : ProcInfo) (fi : FileInfo) (ls : Links)
    (ns es : List Str) (h : generate_dot pi_ fi ls = .ok (ns, es)) :
    emapM (fun e => nodeStmt pi_ e.1) fi = .ok ns := by
  unfold generate_dot at h
  cases hm : emapM (fun e => nodeStmt pi_ e.1) fi with
  | error e2 => rw [hm] at h; cases h
  | ok nodes =>
    rw [hm] at h
    simp only at h
    cases h1 : connEdges ls.unix ("unix".toList) ("purple".toList) with
    | error e2 => rw [h1] at h; cases h
    | ok eu =>
      rw [h1] at h
      cases h2 : connEdges ls.fifo ("fifo".toList) ("green".toList) with
      | error e2 => rw [h2] at h; cases h
      | ok ef =>
        rw [h2] at h
        cases h3 : connEdges ls.tcp ("tcp".toList) ("red".toList) with
        | error e2 => rw [h3] at h; cases h
        | ok et =>
          rw [h3] at h
          cases h4 : connEdges ls.udp ("udp".toList) ("orange".toList) with
          | error e2 => rw [h4] at h; cases h
          | ok ed =>
            rw [h4] at h
            cases h
            rfl

theorem mainModel_parts (lines : List Str) (pi_ : ProcInfo) (fi0 : FileInfo)
    (ns es : List Str) (hp : parse_lsof lines = .ok (pi_, fi0))
    (h : mainModel lines = .ok (ns, es)) :
    ∃ ls, find_links (filterKernel fi0) = .ok ls ∧
      generate_dot pi_ (filterKernel fi0) ls = .ok (ns, es) := by
  unfold mainModel at h
  simp only [hp] at h
  cases hf : find_links (filterKernel fi0) with
  | error e => rw [hf] at h; cases h
  | ok ls =>
    rw [hf] at h
    exact ⟨ls, rfl, h⟩

/-- C3 (amended): feeding the same set of process/descriptor records in any
permutation of line order consistent with the stateful open-context rule
(modelled as any permutation of whole record blocks, with well-formed
attribute lines and distinct process ids) yields an identical *multiset of
node statements*; the *edge* statements are NOT invariant — the
edge's endpoint order and its direction follow the insertion order of the
two participants (`src, dst = pids` and `pids[src]['a']`), see the
counterexample. -/
theorem c3_order_independence (bs1 bs2 : List Block)
    (hwf : ∀ b ∈ bs1, WFBlock b)
    (hnd : (bs1.map Block.pid).Nodup)
    (hperm : List.Perm bs1 bs2)
    (ns1 es1 ns2 es2 : List Str)
    (h1 : mainModel (flattenBlocks bs1) = .ok (ns1, es1))
    (h2 : mainModel (flattenBlocks bs2) = .ok (ns2, es2)) :
    List.Perm ns1 ns2 := by
  have hwf2 : ∀ b ∈ bs2, WFBlock b := fun b hb => hwf b (hperm.mem_iff.mpr hb)
  have hnd2 : (bs2.map Block.pid).Nodup := ((hperm.map Block.pid).nodup_iff).mp hnd
  have hp1 : parse_lsof (flattenBlocks bs1) =
      .ok (bs1.map blockProcEntry, bs1.filterMap blockFiEntry) := by
    rw [parse_lsof_blocks bs1 hwf, buildPi_eq bs1 [] (fun _ _ => rfl) hnd,
        buildFi_eq bs1 [] (fun _ _ => rfl) hnd]
    rfl
  have hp2 : parse_lsof (flattenBlocks bs2) =
      .ok (bs2.map blockProcEntry, bs2.filterMap blockFiEntry) := by
    rw [parse_lsof_blocks bs2 hwf2, buildPi_eq bs2 [] (fun _ _ => rfl) hnd2,
        buildFi_eq bs2 [] (fun _ _ => rfl) hnd2]
    rfl
  obtain ⟨ls1, hfl1, hgd1⟩ := mainModel_parts _ _ _ _ _ hp1 h1
  obtain ⟨ls2, hfl2, hgd2⟩ := mainModel_parts _ _ _ _ _ hp2 h2
  have hn1 := generate_dot_nodes _ _ _ _ _ hgd1
  have hn2 := generate_dot_nodes _ _ _ _ _ hgd2
  have hPiK1 : ((bs1.map blockProcEntry).map Prod.fst).Nodup := by
    rw [piEntry_keys]
    exact hnd
  have hpermPi : List.Perm (bs1.map blockProcEntry) (bs2.map blockProcEntry) :=
    hperm.map _
  have hgetEq : ∀ k, dget? (bs1.map blockProcEntry) k = dget? (bs2.map blockProcEntry) k :=
    fun k => dget?_of_perm _ _ k hpermPi hPiK1
  have hFiK1 := fiEntry_keys_nodup bs1 hnd
  have hFiK2 := fiEntry_keys_nodup bs2 hnd2
  rw [filterKernel_pointwise _ hFiK1] at hn1
  rw [filterKernel_pointwise _ hFiK2] at hn2
  have hcong := emapM_congr (fun e => nodeStmt (bs2.map blockProcEntry) e.1)
    (fun e => nodeStmt (bs1.map blockProcEntry) e.1)
    (List.filter (fun e => ! isKernel e.2) (List.filterMap blockFiEntry bs2))
    (fun x _ => (nodeStmt_congr _ _ hgetEq x.1).symm)
  rw [hcong] at hn2
  exact emapM_perm _ ((hperm.filterMap blockFiEntry).filter _) ns1 ns2 hn1 hn2

/-- Two one-descriptor process blocks sharing unix inode 500, both opened
write-only. -/
def c3blockA : Block :=
  ⟨"1".toList, [('R', "1".toList), ('L', "u".toList), ('c', "a".toList)],
   [("3".toList, [('t', "unix".toList), ('i', "500".toList), ('a', "w".toList)])]⟩

def c3blockB : Block :=
  ⟨"2".toList, [('R', "1".toList), ('L', "u".toList), ('c', "b".toList)],
   [("4".toList, [('t', "unix".toList), ('i', "500".toList), ('a', "w".toList)])]⟩

def edgesOf (r : Except Err (List Str × List Str)) : List Str :=
  match r with
  | .ok p => p.2
  | .error _ => []

/-- C3 counterexample: swapping the order of the two process blocks — a
permutation of the line sequence that keeps every attribute line attached to
the same record — changes the set of emitted edge statements: the unix edge
is rendered `p1 -> p2 ... forward` in one order and `p2 -> p1 ... forward`
in the other (the endpoints and the direction-deciding participant follow
dict insertion order), so the claimed identical edge set, including
direction, fails. -/
theorem c3_order_counterexample :
    List.Perm (flattenBlocks [c3blockA, c3blockB]) (flattenBlocks [c3blockB, c3blockA]) ∧
    (mainModel (flattenBlocks [c3blockA, c3blockB])).isOk = true ∧
    (mainModel (flattenBlocks [c3blockB, c3blockA])).isOk = true ∧
    ¬ (∀ e ∈ edgesOf (mainModel (flattenBlocks [c3blockA, c3blockB])),
        e ∈ edgesOf (mainModel (flattenBlocks [c3blockB, c3blockA]))) := by
  refine ⟨?_, by decide, by decide, by decide⟩
  simp only [flattenBlocks, List.flatMap_cons, List.flatMap_nil, List.append_nil]
  exact List.perm_append_comm

/-- Witness for C3 at the two concrete block orders. -/
theorem c3_order_independence_witness :
    ∃ ns1 es1 ns2 es2,
      mainModel (flattenBlocks [c3blockA, c3blockB]) = .ok (ns1, es1) ∧
      mainModel (flattenBlocks [c3blockB, c3blockA]) = .ok (ns2, es2) ∧
      List.Perm ns1 ns2 := by
  cases hr1 : mainModel (flattenBlocks [c3blockA, c3blockB]) with
  | error e =>
    have hok : (mainModel (flattenBlocks [c3blockA, c3blockB])).isOk = true := by decide
    rw [hr1] at hok
    cases hok
  | ok r1 =>
    cases hr2 : mainModel (flattenBlocks [c3blockB, c3blockA]) with
    | error e =>
      have hok : (mainModel (flattenBlocks [c3blockB, c3blockA])).isOk = true := by decide
      rw [hr2] at hok
      cases hok
    | ok r2 =>
      obtain ⟨ns1, es1⟩ := r1
      obtain ⟨ns2, es2⟩ := r2
      refine ⟨ns1, es1, ns2, es2, rfl, rfl, ?_⟩
      exact c3_order_independence [c3blockA, c3blockB] [c3blockB, c3blockA]
        (by decide) (by decide)
        (List.Perm.swap c3blockB c3blockA []) ns1 es1 ns2 es2 hr1 hr2

end Lsofgraph
